import Mathlib

/-
Verification of the raw-rs library: extension traits for raw pointers
(`src/rawptr.rs`) and raw slices (`src/rawslice.rs`).

Shallow embedding. Memory holding elements of type `T` is modelled at
element granularity as a total function `Nat → T`; an address (`Ptr`) is a
`Nat` in units of one element, matching the library's contract that pointer
arithmetic is in units of `size_of::<T>()`. The machine word width `w` of
`usize` is an explicit parameter: `usize` arithmetic wraps modulo `2 ^ w`,
as it did in the Rust of this code base (pre-overflow-check semantics).
A raw slice `*const [T]` / `*mut [T]` is the fat pointer `Slice { data, len }`
from `std::raw`: a base address paired with an advisory length.
-/

namespace RawRs

/- A machine address is a plain `Nat`, in units of one element of the
pointee type (the library's arithmetic is in units of `size_of::<T>()`);
the `Ptr` namespace below collects the pointer operations. -/

/-- Memory holding elements of type `T` at every address. Validity and
initialization are caller contracts, so the model is a total function. -/
abbrev Mem (T : Type) := Nat → T

/-- Wrapping `usize` subtraction `a - b` at word width `w`
(the semantics of `to - from` in `RawSlice::slice`). -/
def usizeSub (w a b : Nat) : Nat := (2 ^ w + a - b % 2 ^ w) % 2 ^ w

/-- `RawPtrExt::add`: `self.offset(count as isize)`; the displacement is
`count` elements forward, wrapping at the address-space width `w`. -/
def Ptr.add (w : Nat) (p : Nat) (n : Nat) : Nat := (p + n) % 2 ^ w

/-- `RawPtrExt::sub`: `self.offset(-(count as isize))`; the displacement is
`count` elements backward modulo `2 ^ w` (the `usize` argument is reduced
modulo the word width, matching the `as isize` cast and two's complement
negation). -/
def Ptr.sub (w : Nat) (p : Nat) (n : Nat) : Nat := (2 ^ w + p - n % 2 ^ w) % 2 ^ w

/-- `RawPtrExt::read`: `ptr::read(self)` — the value stored at the address. -/
def Ptr.read {T : Type} (m : Mem T) (p : Nat) : T := m p

/-- `RawMutPtrExt::write`: `ptr::write(self, src)` — overwrite the single
element at the address, without reading or dropping the old value. -/
def Ptr.write {T : Type} (m : Mem T) (p : Nat) (v : T) : Mem T :=
  Function.update m p v

/-- `RawMutPtrExt::write_bytes`: `ptr::write_bytes(self, byte, count)` fills
`count * size_of::<T>()` bytes with `byte`. At element granularity every
element of the span becomes the `T` value whose every representation byte is
`byte`; that value is supplied by the parameter `repByte`. -/
def Ptr.write_bytes {T : Type} (repByte : Nat → T) (m : Mem T) (p : Nat)
    (byte count : Nat) : Mem T :=
  fun a => if p ≤ a ∧ a < p + count then repByte byte else m a

/-- `RawPtrExt::copy`: `ptr::copy(self, dest, count)` — memmove semantics,
documented as copying as if through a temporary buffer: every destination
cell receives the corresponding element of the pre-state source span, so
overlapping spans are handled correctly. -/
def Ptr.copy {T : Type} (m : Mem T) (src dst count : Nat) : Mem T :=
  fun a => if dst ≤ a ∧ a < dst + count then m (src + (a - dst)) else m a

/-- `RawPtrExt::copy_nonoverlapping`: `ptr::copy_nonoverlapping(self, dest,
count)` — memcpy. Modelled operationally as the forward element-by-element
loop (each write may clobber later source reads), which on the operation's
disjointness precondition is its exact behavior; under overlap the source
operation is a contract breach with no defined result. -/
def Ptr.copy_nonoverlapping {T : Type} (m : Mem T) (src dst : Nat) : Nat → Mem T
  | 0 => m
  | n + 1 =>
    Ptr.write (Ptr.copy_nonoverlapping m src dst n) (dst + n)
      (Ptr.copy_nonoverlapping m src dst n (src + n))

/-- `RawMutPtrExt::swap`: `ptr::swap(self, y)` — exchange the values at the
two addresses; the addresses may coincide. -/
def Ptr.swap {T : Type} (m : Mem T) (a b : Nat) : Mem T :=
  Function.update (Function.update m a (m b)) b (m a)

/-- `RawMutPtrExt::replace`: `ptr::replace(self, src)` — install `src` at the
address and return the previous value. -/
def Ptr.replace {T : Type} (m : Mem T) (p : Nat) (v : T) : T × Mem T :=
  (m p, Ptr.write m p v)

/-- A raw slice: the fat pointer `std::raw::Slice { data, len }` underlying
`*const [T]` and `*mut [T]` — a base address plus an advisory length. -/
structure RawSlice (T : Type) where
  data : Nat
  len : Nat
deriving DecidableEq

/-- `RawSlice::as_slice` for `*const [T]` / `*mut [T]`: `&*self` — the
bounded view of `len` elements starting at `data`, read from memory `m`. -/
def RawSlice.as_slice {T : Type} (m : Mem T) (s : RawSlice T) : List T :=
  (List.range s.len).map fun i => m (s.data + i)

/-- `RawSlice::as_ptr`: `self.as_slice().as_ptr()` — the base address. -/
def RawSlice.as_ptr {T : Type} (s : RawSlice T) : Nat := s.data

/-- `RawMutSlice::as_mut_ptr`: `self.as_mut_slice().as_mut_ptr()` — the base
address of the mutable raw slice. -/
def RawSlice.as_mut_ptr {T : Type} (s : RawSlice T) : Nat := s.data

/-- `RawSlice::read`: `self.as_ptr().add(index).read()`. The declared length
is not consulted. -/
def RawSlice.read {T : Type} (w : Nat) (m : Mem T) (s : RawSlice T) (i : Nat) : T :=
  Ptr.read m (Ptr.add w s.as_ptr i)

/-- `RawSlice::get`: `&*self.as_ptr().add(index)` — the value behind the
produced reference. The declared length is not consulted. -/
def RawSlice.get {T : Type} (w : Nat) (m : Mem T) (s : RawSlice T) (i : Nat) : T :=
  Ptr.read m (Ptr.add w s.as_ptr i)

/-- `RawSlice::slice` (both the `*const [T]` and the `*mut [T]` impl):
`self.as_ptr().add(lo).as_raw_slice(hi - lo)` — base advanced by `lo`,
length the wrapping `usize` difference `hi - lo`. The Rust parameter names
`from`/`to` are Lean keywords, rendered here as `lo`/`hi`. -/
def RawSlice.slice {T : Type} (w : Nat) (s : RawSlice T) (lo hi : Nat) : RawSlice T :=
  ⟨Ptr.add w s.as_ptr lo, usizeSub w hi lo⟩

/-- `RawMutSlice::write`: `self.as_mut_ptr().add(index).write(val)`. The
declared length is not consulted. -/
def RawSlice.write {T : Type} (w : Nat) (m : Mem T) (s : RawSlice T)
    (i : Nat) (v : T) : Mem T :=
  Ptr.write m (Ptr.add w s.as_mut_ptr i) v

/-- `RawMutSlice::write_bytes`: `let len = self.len(); self.as_mut_ptr()
.write_bytes(byte, len)` — the count is the slice's own length. -/
def RawSlice.write_bytes {T : Type} (repByte : Nat → T) (m : Mem T)
    (s : RawSlice T) (byte : Nat) : Mem T :=
  Ptr.write_bytes repByte m s.as_mut_ptr byte s.len

/-- `RawMutSlice::copy`: `from.as_ptr().copy(self.as_mut_ptr(), from.len())`
— the count is the source slice's length; the destination's own length is
not consulted. -/
def RawSlice.copy {T : Type} (m : Mem T) (s src : RawSlice T) : Mem T :=
  Ptr.copy m src.as_ptr s.as_mut_ptr src.len

/-- `RawMutSlice::copy_nonoverlapping`:
`from.as_ptr().copy_nonoverlapping(self.as_mut_ptr(), from.len())`. -/
def RawSlice.copy_nonoverlapping {T : Type} (m : Mem T) (s src : RawSlice T) : Mem T :=
  Ptr.copy_nonoverlapping m src.as_ptr s.as_mut_ptr src.len

/-- `memRep m base xs` states that memory `m` holds the container contents
`xs` contiguously starting at `base` — the situation produced by taking a
Rust slice of a valid array or vector. -/
def memRep {T : Type} (m : Mem T) (base : Nat) (xs : List T) : Prop :=
  ∀ i, (h : i < xs.length) → m (base + i) = xs[i]

/-- `SliceRawExt::as_raw`: `self as *const [T]` — the identity
reinterpretation of a slice's fat pointer; the container at `base` with
contents `xs` becomes the descriptor `(base, xs.length)`, no element is
touched (the definition does not take the memory as an argument). -/
def as_raw {T : Type} (base : Nat) (xs : List T) : RawSlice T :=
  ⟨base, xs.length⟩

/-- `SliceRawExt::as_mut_raw`: `self as *mut [T]` — identity
reinterpretation of a mutable slice's fat pointer, same descriptor. -/
def as_mut_raw {T : Type} (base : Nat) (xs : List T) : RawSlice T :=
  ⟨base, xs.length⟩

/-! Basic facts about the wrapping address arithmetic. -/

theorem Ptr.add_eq (w p n : Nat) (h : p + n < 2 ^ w) : Ptr.add w p n = p + n :=
  Nat.mod_eq_of_lt h

theorem Ptr.sub_eq (w p n : Nat) (h₁ : n ≤ p) (h₂ : p < 2 ^ w) :
    Ptr.sub w p n = p - n := by
  have hn : n % 2 ^ w = n := Nat.mod_eq_of_lt (lt_of_le_of_lt h₁ h₂)
  have hsplit : 2 ^ w + p - n = 2 ^ w + (p - n) := by omega
  rw [Ptr.sub, hn, hsplit, Nat.add_mod_left, Nat.mod_eq_of_lt (by omega)]

theorem usizeSub_of_le (w a b : Nat) (h₁ : b ≤ a) (h₂ : a < 2 ^ w) :
    usizeSub w a b = a - b := by
  have hb : b % 2 ^ w = b := Nat.mod_eq_of_lt (lt_of_le_of_lt h₁ h₂)
  have hsplit : 2 ^ w + a - b = 2 ^ w + (a - b) := by omega
  rw [usizeSub, hb, hsplit, Nat.add_mod_left, Nat.mod_eq_of_lt (by omega)]

/-! Concrete memories used to exercise the operations. -/

/-- Memory holding the test array `[1, 2, 3, 4]` at base address 0. -/
def mem1234 : Mem Nat := fun a => [1, 2, 3, 4].getD a 0

/-- Memory holding `1` at address 0 and `2` at address 1. -/
def memPair : Mem Nat := fun a => if a = 0 then 1 else if a = 1 then 2 else 7

/-- C1: for every container `xs` laid out in memory at `base`, converting it
to a raw slice via `as_raw` (or `as_mut_raw`) and converting back via
`as_slice` yields a sequence element-wise equal to the container (`as_raw`
itself reads no element: it does not even take the memory as argument). -/
theorem as_raw_roundtrip {T : Type} (m : Mem T) (base : Nat) (xs : List T)
    (h : memRep m base xs) :
    RawSlice.as_slice m (as_raw base xs) = xs ∧
    RawSlice.as_slice m (as_mut_raw base xs) = xs := by
  have key : RawSlice.as_slice m (⟨base, xs.length⟩ : RawSlice T) = xs := by
    apply List.ext_getElem
    · simp [RawSlice.as_slice]
    · intro i h₁ h₂
      simp only [RawSlice.as_slice, List.getElem_map, List.getElem_range]
      exact h i h₂
  exact ⟨key, key⟩

/-- Witness for C1 at the container `[1, 2, 3, 4]` at base 0. -/
theorem as_raw_roundtrip_witness :
    memRep mem1234 0 [1, 2, 3, 4] ∧
    RawSlice.as_slice mem1234 (as_raw 0 [1, 2, 3, 4]) = [1, 2, 3, 4] ∧
    RawSlice.as_slice mem1234 (as_mut_raw 0 [1, 2, 3, 4]) = [1, 2, 3, 4] :=
  ⟨by unfold memRep; decide,
    (as_raw_roundtrip mem1234 0 [1, 2, 3, 4] (by unfold memRep; decide)).1,
    (as_raw_roundtrip mem1234 0 [1, 2, 3, 4] (by unfold memRep; decide)).2⟩

/-- C2: the indexed operations `read`, `get` and `write` on a raw slice are
exactly base-pointer arithmetic followed by a single-element access, and
their result is independent of the slice's declared length. -/
theorem indexed_ops_ignore_length {T : Type} (w : Nat) (m : Mem T)
    (d l₁ l₂ i : Nat) (v : T) :
    (RawSlice.read w m ⟨d, l₁⟩ i = Ptr.read m (Ptr.add w d i) ∧
      RawSlice.get w m ⟨d, l₁⟩ i = Ptr.read m (Ptr.add w d i) ∧
      RawSlice.write w m ⟨d, l₁⟩ i v = Ptr.write m (Ptr.add w d i) v) ∧
    (RawSlice.read w m ⟨d, l₁⟩ i = RawSlice.read w m ⟨d, l₂⟩ i ∧
      RawSlice.get w m ⟨d, l₁⟩ i = RawSlice.get w m ⟨d, l₂⟩ i ∧
      RawSlice.write w m ⟨d, l₁⟩ i v = RawSlice.write w m ⟨d, l₂⟩ i v) :=
  ⟨⟨rfl, rfl, rfl⟩, ⟨rfl, rfl, rfl⟩⟩

/-- C5: `write(v)` then `read()` returns `v`; `replace(v)` returns the value
stored just before the call, leaves `v` installed, and equals `read()`
followed by `write(v)`. -/
theorem write_read_replace_spec {T : Type} (m : Mem T) (p : Nat) (v : T) :
    Ptr.read (Ptr.write m p v) p = v ∧
    (Ptr.replace m p v).1 = Ptr.read m p ∧
    Ptr.read (Ptr.replace m p v).2 p = v ∧
    Ptr.replace m p v = (Ptr.read m p, Ptr.write m p v) := by
  refine ⟨?_, rfl, ?_, rfl⟩ <;>
    simp [Ptr.read, Ptr.write, Ptr.replace, Function.update_same]

/-- C6: after `a.swap(b)` the memory at `a` holds the old value of `b` and
the memory at `b` holds the old value of `a`; swapping an address with
itself leaves the memory unchanged. -/
theorem swap_spec {T : Type} (m : Mem T) (a b : Nat) :
    Ptr.read (Ptr.swap m a b) a = Ptr.read m b ∧
    Ptr.read (Ptr.swap m a b) b = Ptr.read m a ∧
    (a = b → Ptr.swap m a b = m) := by
  refine ⟨?_, ?_, ?_⟩
  · by_cases hab : a = b
    · subst hab; simp [Ptr.swap, Ptr.read, Function.update_same]
    · simp [Ptr.swap, Ptr.read, Function.update_noteq hab, Function.update_same]
  · simp [Ptr.swap, Ptr.read, Function.update_same]
  · intro hab
    subst hab
    funext x
    by_cases hx : x = a
    · subst hx; simp [Ptr.swap, Function.update_same]
    · simp [Ptr.swap, Function.update_noteq hx]

/-- Witness for C6: addresses 0 and 1 holding 1 and 2, and the self-swap at
address 5. -/
theorem swap_spec_witness :
    Ptr.read (Ptr.swap memPair 0 1) 0 = 2 ∧
    Ptr.read (Ptr.swap memPair 0 1) 1 = 1 ∧
    Ptr.swap memPair 5 5 = memPair :=
  ⟨(swap_spec memPair 0 1).1.trans (by decide),
    (swap_spec memPair 0 1).2.1.trans (by decide),
    (swap_spec memPair 5 5).2.2 rfl⟩

/-- C7: with the result in bounds, `add` denotes the address `n` elements
after `p`, `sub` the address `k` elements before, and
`p.add(n).sub(k) = p.add(n - k)` whenever `k ≤ n`. -/
theorem add_sub_spec (w p n k : Nat) (h₁ : p + n < 2 ^ w) (h₂ : k ≤ n) :
    Ptr.add w p n = p + n ∧
    Ptr.sub w (p + n) k = p + n - k ∧
    Ptr.sub w (Ptr.add w p n) k = Ptr.add w p (n - k) := by
  have ha : Ptr.add w p n = p + n := Ptr.add_eq w p n h₁
  have hs : Ptr.sub w (p + n) k = p + n - k :=
    Ptr.sub_eq w (p + n) k (le_trans h₂ (Nat.le_add_left n p)) h₁
  have ha₂ : Ptr.add w p (n - k) = p + (n - k) := Ptr.add_eq w p (n - k) (by omega)
  refine ⟨ha, hs, ?_⟩
  rw [ha, hs, ha₂]
  omega

/-- Witness for C7 on the array `[1, 2, 3, 4]` at base 0 with word width 64:
`p.add(2)` dereferences to 3 and `p.add(2).sub(1)` dereferences to 2. -/
theorem add_sub_spec_witness :
    (0 + 2 < 2 ^ 64 ∧ 1 ≤ 2) ∧
    Ptr.add 64 0 2 = 0 + 2 ∧
    Ptr.sub 64 (Ptr.add 64 0 2) 1 = Ptr.add 64 0 (2 - 1) ∧
    Ptr.read mem1234 (Ptr.add 64 0 2) = 3 ∧
    Ptr.read mem1234 (Ptr.sub 64 (Ptr.add 64 0 2) 1) = 2 :=
  ⟨⟨by decide, by decide⟩,
    (add_sub_spec 64 0 2 1 (by decide) (by decide)).1,
    (add_sub_spec 64 0 2 1 (by decide) (by decide)).2.2,
    by decide, by decide⟩

/-! Helper lemmas about the two bulk-copy primitives. -/

theorem Ptr.copy_inside {T : Type} (m : Mem T) (src dst count j : Nat)
    (hj : j < count) :
    Ptr.copy m src dst count (dst + j) = m (src + j) := by
  show (if dst ≤ dst + j ∧ dst + j < dst + count
      then m (src + (dst + j - dst)) else m (dst + j)) = m (src + j)
  rw [if_pos ⟨by omega, by omega⟩]
  congr 1
  omega

theorem Ptr.copy_outside {T : Type} (m : Mem T) (src dst count a : Nat)
    (h : a < dst ∨ dst + count ≤ a) :
    Ptr.copy m src dst count a = m a := by
  show (if dst ≤ a ∧ a < dst + count then m (src + (a - dst)) else m a) = m a
  rw [if_neg (by omega)]

theorem Ptr.copy_nonoverlapping_outside {T : Type} (m : Mem T) (src dst count a : Nat) :
    a < dst ∨ dst + count ≤ a → Ptr.copy_nonoverlapping m src dst count a = m a := by
  induction count with
  | zero => intro h; rfl
  | succ n ih =>
    intro h
    have hne : a ≠ dst + n := by omega
    show Ptr.write (Ptr.copy_nonoverlapping m src dst n) (dst + n)
      (Ptr.copy_nonoverlapping m src dst n (src + n)) a = m a
    rw [Ptr.write, Function.update_noteq hne]
    exact ih (by omega)

theorem Ptr.copy_nonoverlapping_eq_copy {T : Type} (m : Mem T) (src dst count : Nat) :
    src + count ≤ dst ∨ dst + count ≤ src →
    Ptr.copy_nonoverlapping m src dst count = Ptr.copy m src dst count := by
  induction count with
  | zero =>
    intro h
    funext a
    show m a = if dst ≤ a ∧ a < dst + 0 then m (src + (a - dst)) else m a
    rw [if_neg (by omega)]
  | succ n ih =>
    intro h
    have hd : src + n ≤ dst ∨ dst + n ≤ src := by omega
    funext a
    show Ptr.write (Ptr.copy_nonoverlapping m src dst n) (dst + n)
      (Ptr.copy_nonoverlapping m src dst n (src + n)) a = Ptr.copy m src dst (n + 1) a
    rw [ih hd]
    have hsrc : Ptr.copy m src dst n (src + n) = m (src + n) := by
      show (if dst ≤ src + n ∧ src + n < dst + n
          then m (src + (src + n - dst)) else m (src + n)) = m (src + n)
      rw [if_neg (by omega)]
    rw [hsrc]
    by_cases ha : a = dst + n
    · subst ha
      rw [Ptr.write, Function.update_same]
      show m (src + n) = if dst ≤ dst + n ∧ dst + n < dst + (n + 1)
        then m (src + (dst + n - dst)) else m (dst + n)
      rw [if_pos ⟨by omega, by omega⟩]
      congr 1
      omega
    · rw [Ptr.write, Function.update_noteq ha]
      show (if dst ≤ a ∧ a < dst + n then m (src + (a - dst)) else m a) =
        if dst ≤ a ∧ a < dst + (n + 1) then m (src + (a - dst)) else m a
      by_cases hin : dst ≤ a ∧ a < dst + n
      · rw [if_pos hin, if_pos ⟨hin.1, by omega⟩]
      · rw [if_neg hin, if_neg (by omega)]

/-- Memory holding the array `[1, 2, 3, 4]` at base 0 and the disjoint
array `[5, 6, 7, 8]` at base 10. -/
def memC4 : Mem Nat :=
  fun a => if a < 4 then [1, 2, 3, 4].getD a 0 else [5, 6, 7, 8].getD (a - 10) 0

/-- C3: with `lo ≤ hi ≤ len` and the addresses in range, `slice lo hi` is
the sub-region with base `data + lo` and declared length `hi - lo`. -/
theorem slice_spec {T : Type} (w : Nat) (s : RawSlice T) (lo hi : Nat)
    (h₁ : lo ≤ hi) (h₂ : hi ≤ s.len) (h₃ : s.data + hi < 2 ^ w) :
    (RawSlice.slice w s lo hi).data = s.data + lo ∧
    (RawSlice.slice w s lo hi).len = hi - lo := by
  constructor
  · show Ptr.add w s.data lo = s.data + lo
    exact Ptr.add_eq w s.data lo (by omega)
  · show usizeSub w hi lo = hi - lo
    exact usizeSub_of_le w hi lo h₁ (by omega)

/-- Witness for C3: over `[1, 2, 3, 4]`, `slice 1 3` has base `0 + 1`,
length 2, and its elements read as `[2, 3]`. -/
theorem slice_spec_witness :
    ((1 : Nat) ≤ 3 ∧ 3 ≤ (RawSlice.mk 0 4 : RawSlice Nat).len ∧
      (0 : Nat) + 3 < 2 ^ 64) ∧
    (RawSlice.slice 64 (RawSlice.mk 0 4 : RawSlice Nat) 1 3).data = 0 + 1 ∧
    (RawSlice.slice 64 (RawSlice.mk 0 4 : RawSlice Nat) 1 3).len = 3 - 1 ∧
    RawSlice.as_slice mem1234 (RawSlice.slice 64 (RawSlice.mk 0 4) 1 3) = [2, 3] :=
  ⟨⟨by decide, by decide, by decide⟩,
    (slice_spec 64 (RawSlice.mk 0 4) 1 3 (by decide) (by decide) (by decide)).1,
    (slice_spec 64 (RawSlice.mk 0 4) 1 3 (by decide) (by decide) (by decide)).2,
    by decide⟩

/-- C4: `copy` has memmove semantics — every destination cell receives the
pre-state source element even under overlap, cells outside the destination
span are untouched — and on disjoint spans `copy_nonoverlapping` computes
the same memory, relocating the same `count` elements. -/
theorem copy_memmove_spec {T : Type} (m : Mem T) (src dst count : Nat) :
    (∀ j, j < count → Ptr.copy m src dst count (dst + j) = m (src + j)) ∧
    (∀ a, a < dst ∨ dst + count ≤ a → Ptr.copy m src dst count a = m a) ∧
    (src + count ≤ dst ∨ dst + count ≤ src →
      Ptr.copy_nonoverlapping m src dst count = Ptr.copy m src dst count ∧
      ∀ j, j < count →
        Ptr.copy_nonoverlapping m src dst count (dst + j) = m (src + j)) := by
  refine ⟨fun j hj => Ptr.copy_inside m src dst count j hj,
    fun a ha => Ptr.copy_outside m src dst count a ha, fun hdisj => ?_⟩
  have he := Ptr.copy_nonoverlapping_eq_copy m src dst count hdisj
  exact ⟨he, fun j hj => by
    rw [he]
    exact Ptr.copy_inside m src dst count j hj⟩

/-- Witness for C4: shifting `[1, 2, 3, 4]` one element left via `copy`
from offset 1 into offset 0 yields `[2, 3, 3, 4]`; `copy_nonoverlapping`
from the disjoint `[5, 6, 7, 8]` into the full destination yields
`[5, 6, 7, 8]`. -/
theorem copy_memmove_spec_witness :
    ((0 : Nat) < 2 ∧ Ptr.copy memC4 1 0 2 (0 + 0) = memC4 (1 + 0)) ∧
    ((10 : Nat) + 4 ≤ 0 ∨ (0 : Nat) + 4 ≤ 10) ∧
    Ptr.copy_nonoverlapping memC4 10 0 4 = Ptr.copy memC4 10 0 4 ∧
    RawSlice.as_slice (Ptr.copy memC4 1 0 2) (RawSlice.mk 0 4) = [2, 3, 3, 4] ∧
    RawSlice.as_slice (Ptr.copy_nonoverlapping memC4 10 0 4) (RawSlice.mk 0 4) =
      [5, 6, 7, 8] :=
  ⟨⟨by decide, (copy_memmove_spec memC4 1 0 2).1 0 (by decide)⟩,
    by decide,
    ((copy_memmove_spec memC4 10 0 4).2.2 (by decide)).1,
    by decide, by decide⟩

/-- C8: `write_bytes` on a mutable raw slice fills exactly its own `len`
elements starting at its base with the repeated-byte element, leaves
everything outside that span unchanged, and takes no caller-supplied
count. -/
theorem write_bytes_region_spec {T : Type} (repByte : Nat → T) (m : Mem T)
    (s : RawSlice T) (byte : Nat) :
    (∀ i, i < s.len →
      RawSlice.write_bytes repByte m s byte (s.data + i) = repByte byte) ∧
    (∀ a, a < s.data ∨ s.data + s.len ≤ a →
      RawSlice.write_bytes repByte m s byte a = m a) := by
  constructor
  · intro i hi
    show (if s.data ≤ s.data + i ∧ s.data + i < s.data + s.len
        then repByte byte else m (s.data + i)) = repByte byte
    rw [if_pos ⟨by omega, by omega⟩]
  · intro a ha
    show (if s.data ≤ a ∧ a < s.data + s.len then repByte byte else m a) = m a
    rw [if_neg (by omega)]

/-- Witness for C8: `write_bytes 0` over the four-element region holding
`[1, 2, 3, 4]` (with `repByte` the identity, so the all-zero byte pattern
is the value 0) makes every element read as zero and spares address 9. -/
theorem write_bytes_region_spec_witness :
    ((0 : Nat) < (RawSlice.mk 0 4 : RawSlice Nat).len) ∧
    RawSlice.write_bytes (fun b => b) mem1234 (RawSlice.mk 0 4) 0 (0 + 0) = 0 ∧
    ((9 : Nat) < 0 ∨ (0 : Nat) + 4 ≤ 9) ∧
    RawSlice.write_bytes (fun b => b) mem1234 (RawSlice.mk 0 4) 0 9 = mem1234 9 ∧
    RawSlice.as_slice (RawSlice.write_bytes (fun b => b) mem1234 (RawSlice.mk 0 4) 0)
      (RawSlice.mk 0 4) = [0, 0, 0, 0] :=
  ⟨by decide,
    (write_bytes_region_spec (fun b => b) mem1234 (RawSlice.mk 0 4) 0).1 0 (by decide),
    by decide,
    (write_bytes_region_spec (fun b => b) mem1234 (RawSlice.mk 0 4) 0).2 9
      (Or.inr (by decide)),
    by decide⟩

/-- C9: region `copy` and `copy_nonoverlapping` relocate exactly
`src.len` elements from the source base to the destination base; the
destination's declared length is never consulted, and destination offsets
at or beyond `src.len` keep their old contents. -/
theorem region_copy_spec {T : Type} (m : Mem T) (d l₁ l₂ : Nat) (src : RawSlice T) :
    (RawSlice.copy m ⟨d, l₁⟩ src = RawSlice.copy m ⟨d, l₂⟩ src ∧
      RawSlice.copy_nonoverlapping m ⟨d, l₁⟩ src =
        RawSlice.copy_nonoverlapping m ⟨d, l₂⟩ src) ∧
    (∀ j, j < src.len →
      RawSlice.copy m ⟨d, l₁⟩ src (d + j) = m (src.data + j)) ∧
    (∀ j, src.len ≤ j →
      RawSlice.copy m ⟨d, l₁⟩ src (d + j) = m (d + j) ∧
      RawSlice.copy_nonoverlapping m ⟨d, l₁⟩ src (d + j) = m (d + j)) ∧
    (src.data + src.len ≤ d ∨ d + src.len ≤ src.data →
      ∀ j, j < src.len →
        RawSlice.copy_nonoverlapping m ⟨d, l₁⟩ src (d + j) = m (src.data + j)) := by
  refine ⟨⟨rfl, rfl⟩, ?_, ?_, ?_⟩
  · intro j hj
    exact Ptr.copy_inside m src.data d src.len j hj
  · intro j hj
    exact ⟨Ptr.copy_outside m src.data d src.len (d + j) (Or.inr (by omega)),
      Ptr.copy_nonoverlapping_outside m src.data d src.len (d + j) (Or.inr (by omega))⟩
  · intro hdisj j hj
    have he := Ptr.copy_nonoverlapping_eq_copy m src.data d src.len hdisj
    show Ptr.copy_nonoverlapping m src.data d src.len (d + j) = m (src.data + j)
    rw [he]
    exact Ptr.copy_inside m src.data d src.len j hj

/-- Witness for C9: copying the two-element source `[5, 6]` at base 10 into
the four-element destination `[1, 2, 3, 4]` at base 0 (declared lengths 4
and 7 agree) yields `[5, 6, 3, 4]` under both copy flavors. -/
theorem region_copy_spec_witness :
    ((0 : Nat) < (RawSlice.mk 10 2 : RawSlice Nat).len) ∧
    RawSlice.copy memC4 (RawSlice.mk 0 4) (RawSlice.mk 10 2) =
      RawSlice.copy memC4 (RawSlice.mk 0 7) (RawSlice.mk 10 2) ∧
    RawSlice.copy memC4 (RawSlice.mk 0 4) (RawSlice.mk 10 2) (0 + 0) = memC4 (10 + 0) ∧
    ((10 : Nat) + 2 ≤ 0 ∨ (0 : Nat) + 2 ≤ 10) ∧
    RawSlice.copy_nonoverlapping memC4 (RawSlice.mk 0 4) (RawSlice.mk 10 2) (0 + 0) =
      memC4 (10 + 0) ∧
    RawSlice.as_slice (RawSlice.copy memC4 (RawSlice.mk 0 4) (RawSlice.mk 10 2))
      (RawSlice.mk 0 4) = [5, 6, 3, 4] ∧
    RawSlice.as_slice
      (RawSlice.copy_nonoverlapping memC4 (RawSlice.mk 0 4) (RawSlice.mk 10 2))
      (RawSlice.mk 0 4) = [5, 6, 3, 4] :=
  ⟨by decide,
    (region_copy_spec memC4 0 4 7 (RawSlice.mk 10 2)).1.1,
    (region_copy_spec memC4 0 4 7 (RawSlice.mk 10 2)).2.1 0 (by decide),
    by decide,
    (region_copy_spec memC4 0 4 7 (RawSlice.mk 10 2)).2.2.2 (by decide) 0 (by decide),
    by decide, by decide⟩

/-- C10: calling `slice` with `lo > hi` signals no error (the operation is
total in the model, as in the code, which performs no check); the produced
length is the wrapping machine subtraction, i.e. `2 ^ w - (lo - hi)`, while
the base is still `data.add(lo)`. -/
theorem slice_reversed_spec {T : Type} (w : Nat) (s : RawSlice T) (lo hi : Nat)
    (h₁ : hi < lo) (h₂ : lo < 2 ^ w) :
    (RawSlice.slice w s lo hi).data = Ptr.add w s.data lo ∧
    (RawSlice.slice w s lo hi).len = 2 ^ w - (lo - hi) := by
  refine ⟨rfl, ?_⟩
  show usizeSub w hi lo = 2 ^ w - (lo - hi)
  have hw : 0 < 2 ^ w := pow_pos (by norm_num) w
  have hlo : lo % 2 ^ w = lo := Nat.mod_eq_of_lt h₂
  have hsplit : 2 ^ w + hi - lo = 2 ^ w - (lo - hi) := by omega
  rw [usizeSub, hlo, hsplit, Nat.mod_eq_of_lt (by omega)]

/-- Witness for C10: at word width 64, `slice 3 1` on the region over
`[1, 2, 3, 4]` yields base `0 + 3` and the enormous advisory length
`2 ^ 64 - 2`. -/
theorem slice_reversed_spec_witness :
    ((1 : Nat) < 3 ∧ (3 : Nat) < 2 ^ 64) ∧
    (RawSlice.slice 64 (RawSlice.mk 0 4 : RawSlice Nat) 3 1).data = Ptr.add 64 0 3 ∧
    (RawSlice.slice 64 (RawSlice.mk 0 4 : RawSlice Nat) 3 1).len = 2 ^ 64 - (3 - 1) :=
  ⟨⟨by decide, by decide⟩,
    (slice_reversed_spec 64 (RawSlice.mk 0 4) 3 1 (by decide) (by decide)).1,
    (slice_reversed_spec 64 (RawSlice.mk 0 4) 3 1 (by decide) (by decide)).2⟩

end RawRs
